import Mathlib

/-!
Verification of the MemoryProfiler core against its specification.

The C++ sources are shallowly embedded: pointers are modelled by their
numeric address value (`Nat`, with `0` playing the role of `nullptr`),
C strings (`const char*`) by `Option (List Char)` (`none` = null),
`std::string` by `List Char`, and the `std::size_t` counters by natural
numbers reduced modulo `2 ^ 64` wherever the C++ performs arithmetic on
them.  The `std::unordered_map<void*, AllocationRecord>` live table is
modelled by an association list together with `lookup` / `emplace` /
`erase` operations that mirror the container semantics used by the code
(`emplace` inserts only when the key is absent; `erase` removes the
found entry).
-/

namespace MP

/-- The modulus of the C++ `std::size_t` counters (64-bit). -/
def W : Nat := 2 ^ 64

/-- Embedding of `mp::AllocationRecord` (MemoryTracker.hpp, lines 16-25). -/
structure AllocationRecord where
  ptr : Nat
  size : Nat
  type_name : Option (List Char)
  timestamp_ns : Nat
  thread_id : Nat
  file : Option (List Char)
  line : Int
  is_array : Bool
deriving DecidableEq

/-- State of `mp::MemoryTracker` (MemoryTracker.hpp, lines 63-72): the
live table plus the five `std::size_t` counters. -/
structure Ledger where
  live : List (Nat × AllocationRecord)
  total_allocs : Nat
  active_allocs : Nat
  total_bytes : Nat
  active_bytes : Nat
  peak_bytes : Nat
deriving DecidableEq

/-- The freshly constructed tracker: empty table, all counters zero
(default member initialisers in MemoryTracker.hpp). -/
def Ledger.init : Ledger := ⟨[], 0, 0, 0, 0, 0⟩

/-- `live_.find(p)` on the association-list model: the record stored
under key `p`, if any. -/
def lookupLive (l : List (Nat × AllocationRecord)) (p : Nat) :
    Option AllocationRecord :=
  match l with
  | [] => none
  | kv :: t => if kv.1 = p then some kv.2 else lookupLive t p

/-- `live_.emplace(p, r)`: inserts only when the key is absent;
if `p` is already present the map is unchanged. -/
def emplace (l : List (Nat × AllocationRecord)) (p : Nat)
    (r : AllocationRecord) : List (Nat × AllocationRecord) :=
  match lookupLive l p with
  | some _ => l
  | none => (p, r) :: l

/-- `live_.erase(it)` where `it = live_.find(p)`: removes the entry the
lookup found. -/
def eraseKey (l : List (Nat × AllocationRecord)) (p : Nat) :
    List (Nat × AllocationRecord) :=
  match l with
  | [] => []
  | kv :: t => if kv.1 = p then t else kv :: eraseKey t p

/-- `MemoryTracker::onAlloc` (MemoryTracker.cpp, lines 33-63).  The
runtime inputs `nowNs()` and `thisThreadId()` are passed in as the
parameters `tNs` and `tid`.  Counter arithmetic is `std::size_t`
arithmetic, i.e. modulo `W`. -/
def Ledger.onAlloc (s : Ledger) (p sz : Nat) (ty fi : Option (List Char))
    (ln : Int) (arr : Bool) (tNs tid : Nat) : Ledger :=
  if p = 0 ∨ sz = 0 then s
  else
    let r : AllocationRecord := ⟨p, sz, ty, tNs, tid, fi, ln, arr⟩
    { s with
      live := emplace s.live p r
      total_allocs := (s.total_allocs + 1) % W
      active_allocs := (s.active_allocs + 1) % W
      total_bytes := (s.total_bytes + sz) % W
      active_bytes := (s.active_bytes + sz) % W
      peak_bytes :=
        if (s.active_bytes + sz) % W > s.peak_bytes then
          (s.active_bytes + sz) % W
        else s.peak_bytes }

/-- `MemoryTracker::onFree` (MemoryTracker.cpp, lines 68-81).  The
subtraction and decrement are guarded exactly as in the source. -/
def Ledger.onFree (s : Ledger) (p : Nat) (arr : Bool) : Ledger :=
  if p = 0 then s
  else
    match lookupLive s.live p with
    | none => s
    | some r =>
      { s with
        live := eraseKey s.live p
        active_bytes :=
          if s.active_bytes ≥ r.size then s.active_bytes - r.size
          else s.active_bytes
        active_allocs :=
          if s.active_allocs > 0 then s.active_allocs - 1
          else s.active_allocs }

/-- One call into the tracker: either `onAlloc` (with all of its
arguments, including the runtime clock and thread id) or `onFree`. -/
inductive Op where
  | alloc (p sz : Nat) (ty fi : Option (List Char)) (ln : Int)
      (arr : Bool) (tNs tid : Nat)
  | free (p : Nat) (arr : Bool)
deriving DecidableEq

/-- Apply one call to the tracker state. -/
def Ledger.step (s : Ledger) : Op → Ledger
  | .alloc p sz ty fi ln arr tNs tid => s.onAlloc p sz ty fi ln arr tNs tid
  | .free p arr => s.onFree p arr

/-- Run a whole sequence of calls. -/
def Ledger.run (s : Ledger) (ops : List Op) : Ledger :=
  ops.foldl Ledger.step s

/-- Sum of the sizes of the records currently in the live table. -/
def sumLive (l : List (Nat × AllocationRecord)) : Nat :=
  (l.map (fun kv => kv.2.size)).sum

/-- A call sequence is fresh for a state when every `onAlloc` that
actually records (non-null pointer, non-zero size) uses an address that
is not currently in the live table — which is how a real allocator
behaves, since it never hands out an address that is still allocated. -/
def freshSeq (s : Ledger) : List Op → Bool
  | [] => true
  | op :: rest =>
    (match op with
     | .alloc p sz _ _ _ _ _ _ =>
       (p == 0) || (sz == 0) || (lookupLive s.live p).isNone
     | .free _ _ => true) && freshSeq (s.step op) rest

/-- Total number of bytes requested by the `alloc` calls of a sequence. -/
def allocBytes : List Op → Nat
  | [] => 0
  | .alloc _ sz _ _ _ _ _ _ :: rest => sz + allocBytes rest
  | .free _ _ :: rest => allocBytes rest

-- ### Basic lemmas about the live-table model

theorem sumLive_nil : sumLive [] = 0 := rfl

theorem sumLive_cons (kv : Nat × AllocationRecord)
    (l : List (Nat × AllocationRecord)) :
    sumLive (kv :: l) = kv.2.size + sumLive l := by
  simp [sumLive]

theorem lookupLive_size_le_sum (l : List (Nat × AllocationRecord))
    (p : Nat) (r : AllocationRecord) (h : lookupLive l p = some r) :
    r.size ≤ sumLive l := by
  induction l with
  | nil => simp [lookupLive] at h
  | cons kv t ih =>
    rw [lookupLive] at h
    rw [sumLive_cons]
    by_cases hk : kv.1 = p
    · simp [hk] at h
      subst h
      exact Nat.le_add_right _ _
    · simp [hk] at h
      exact (ih h).trans (Nat.le_add_left _ _)

theorem sumLive_eraseKey (l : List (Nat × AllocationRecord)) (p : Nat)
    (r : AllocationRecord) (h : lookupLive l p = some r) :
    sumLive l = r.size + sumLive (eraseKey l p) := by
  induction l with
  | nil => simp [lookupLive] at h
  | cons kv t ih =>
    rw [lookupLive] at h
    by_cases hk : kv.1 = p
    · simp [hk] at h
      subst h
      simp [eraseKey, hk, sumLive_cons]
    · simp [hk] at h
      simp [eraseKey, hk, sumLive_cons, ih h]
      omega

theorem length_eraseKey (l : List (Nat × AllocationRecord)) (p : Nat)
    (r : AllocationRecord) (h : lookupLive l p = some r) :
    l.length = (eraseKey l p).length + 1 := by
  induction l with
  | nil => simp [lookupLive] at h
  | cons kv t ih =>
    rw [lookupLive] at h
    by_cases hk : kv.1 = p
    · simp [eraseKey, hk]
    · simp [hk] at h
      simp [eraseKey, hk, ih h]

theorem mem_eraseKey (l : List (Nat × AllocationRecord)) (p : Nat)
    (kv : Nat × AllocationRecord) (h : kv ∈ eraseKey l p) : kv ∈ l := by
  induction l with
  | nil => simp [eraseKey] at h
  | cons hd t ih =>
    rw [eraseKey] at h
    by_cases hk : hd.1 = p
    · simp [hk] at h
      exact List.mem_cons_of_mem _ h
    · simp [hk] at h
      rcases h with h | h
      · exact h ▸ List.mem_cons_self _ _
      · exact List.mem_cons_of_mem _ (ih h)

theorem length_le_sumLive (l : List (Nat × AllocationRecord))
    (h : ∀ kv ∈ l, kv.2.size ≠ 0) : l.length ≤ sumLive l := by
  induction l with
  | nil => simp [sumLive]
  | cons kv t ih =>
    rw [sumLive_cons, List.length_cons]
    have h1 : 1 ≤ kv.2.size :=
      Nat.one_le_iff_ne_zero.mpr (h kv (List.mem_cons_self _ _))
    have h2 : t.length ≤ sumLive t :=
      ih (fun x hx => h x (List.mem_cons_of_mem _ hx))
    omega

-- ### The ledger bookkeeping invariant

/-- The bookkeeping invariant of the tracker: the active-bytes counter
equals the sum of the live records' sizes, the active-allocations
counter equals the number of live records, and no live record has size
zero (only non-zero sizes are ever recorded). -/
def LedgerInv (s : Ledger) : Prop :=
  s.active_bytes = sumLive s.live ∧
  s.active_allocs = s.live.length ∧
  ∀ kv ∈ s.live, kv.2.size ≠ 0

theorem run_cons (s : Ledger) (op : Op) (ops : List Op) :
    s.run (op :: ops) = (s.step op).run ops := rfl

theorem run_preserves_inv (ops : List Op) : ∀ s : Ledger,
    freshSeq s ops = true → sumLive s.live + allocBytes ops < W →
    LedgerInv s → LedgerInv (s.run ops) := by
  induction ops with
  | nil => intro s _ _ hI; exact hI
  | cons op rest ih =>
    intro s hf hb hI
    rw [run_cons]
    obtain ⟨hAB, hAA, hSZ⟩ := hI
    cases op with
    | alloc p sz ty fi ln arr tNs tid =>
      simp only [freshSeq, Bool.and_eq_true, Bool.or_eq_true, beq_iff_eq,
        Option.isNone_iff_eq_none] at hf
      obtain ⟨hf1, hf2⟩ := hf
      rw [allocBytes] at hb
      by_cases h0 : p = 0 ∨ sz = 0
      · have hstep : s.step (Op.alloc p sz ty fi ln arr tNs tid) = s := by
          simp [Ledger.step, Ledger.onAlloc, h0]
        rw [hstep] at hf2 ⊢
        exact ih s hf2 (by omega) ⟨hAB, hAA, hSZ⟩
      · push_neg at h0
        obtain ⟨hp, hsz⟩ := h0
        have hnone : lookupLive s.live p = none := by tauto
        have hsz1 : 1 ≤ sz := Nat.one_le_iff_ne_zero.mpr hsz
        have hlen : s.live.length ≤ sumLive s.live := length_le_sumLive _ hSZ
        have hor : ¬ (p = 0 ∨ sz = 0) := by
          push_neg
          exact ⟨hp, hsz⟩
        have hlive : (s.step (Op.alloc p sz ty fi ln arr tNs tid)).live =
            (p, (⟨p, sz, ty, tNs, tid, fi, ln, arr⟩ : AllocationRecord)) ::
              s.live := by
          simp [Ledger.step, Ledger.onAlloc, hor, emplace, hnone]
        have hab : (s.step (Op.alloc p sz ty fi ln arr tNs tid)).active_bytes =
            s.active_bytes + sz := by
          simp [Ledger.step, Ledger.onAlloc, hor]
          exact Nat.mod_eq_of_lt (by omega)
        have haa : (s.step (Op.alloc p sz ty fi ln arr tNs tid)).active_allocs =
            s.active_allocs + 1 := by
          simp [Ledger.step, Ledger.onAlloc, hor]
          exact Nat.mod_eq_of_lt (by omega)
        apply ih _ hf2
        · rw [hlive, sumLive_cons]
          simp only []
          omega
        · refine ⟨?_, ?_, ?_⟩
          · rw [hab, hlive, sumLive_cons, hAB]
            simp only []
            omega
          · rw [haa, hlive, List.length_cons, hAA]
          · rw [hlive]
            intro kv hkv
            rcases List.mem_cons.mp hkv with h | h
            · subst h
              exact hsz
            · exact hSZ kv h
    | free p arr =>
      simp only [freshSeq, Bool.true_and] at hf
      have hf2 := hf
      rw [allocBytes] at hb
      by_cases hp : p = 0
      · have hstep : s.step (Op.free p arr) = s := by
          simp [Ledger.step, Ledger.onFree, hp]
        rw [hstep] at hf2 ⊢
        exact ih s hf2 hb ⟨hAB, hAA, hSZ⟩
      · cases hl : lookupLive s.live p with
        | none =>
          have hstep : s.step (Op.free p arr) = s := by
            simp [Ledger.step, Ledger.onFree, hp, hl]
          rw [hstep] at hf2 ⊢
          exact ih s hf2 hb ⟨hAB, hAA, hSZ⟩
        | some r =>
          have hr : r.size ≤ sumLive s.live := lookupLive_size_le_sum _ _ _ hl
          have hsum : sumLive s.live = r.size + sumLive (eraseKey s.live p) :=
            sumLive_eraseKey _ _ _ hl
          have hlen : s.live.length = (eraseKey s.live p).length + 1 :=
            length_eraseKey _ _ _ hl
          have hlive : (s.step (Op.free p arr)).live = eraseKey s.live p := by
            simp [Ledger.step, Ledger.onFree, hp, hl]
          have hab : (s.step (Op.free p arr)).active_bytes =
              s.active_bytes - r.size := by
            simp [Ledger.step, Ledger.onFree, hp, hl]
            intro hcon
            omega
          have haa : (s.step (Op.free p arr)).active_allocs =
              s.active_allocs - 1 := by
            simp [Ledger.step, Ledger.onFree, hp, hl]
            intro hcon
            omega
          apply ih _ hf2
          · rw [hlive]
            omega
          · refine ⟨?_, ?_, ?_⟩
            · rw [hab, hlive, hAB]
              omega
            · rw [haa, hlive, hAA]
              omega
            · rw [hlive]
              exact fun kv hkv => hSZ kv (mem_eraseKey _ _ _ hkv)

-- ### Claim C1

/-- **C1** (amended): starting from a fresh tracker, after any sequence
of `onAlloc`/`onFree` calls in which every recording `onAlloc` uses an
address not currently in the live table (as a real allocator guarantees)
and whose total requested bytes stay below `2 ^ 64` (no `size_t`
wraparound), the active-bytes counter equals the sum of the sizes of the
records in the live table and the active-allocations counter equals the
number of records in the table. -/
theorem active_counters_match_table (ops : List Op)
    (hfresh : freshSeq Ledger.init ops = true)
    (hbytes : allocBytes ops < W) :
    (Ledger.init.run ops).active_bytes =
      sumLive (Ledger.init.run ops).live ∧
    (Ledger.init.run ops).active_allocs =
      (Ledger.init.run ops).live.length := by
  have h := run_preserves_inv ops Ledger.init hfresh
    (by simpa [Ledger.init, sumLive] using hbytes)
    ⟨rfl, rfl, by simp [Ledger.init]⟩
  exact ⟨h.1, h.2.1⟩

/-- Concrete call sequence used to witness C1. -/
def c1ops : List Op :=
  [Op.alloc 1 10 none none 0 false 0 0,
   Op.alloc 2 20 none none 0 false 0 0,
   Op.free 1 false]

theorem active_counters_match_table_witness :
    (Ledger.init.run c1ops).active_bytes =
      sumLive (Ledger.init.run c1ops).live ∧
    (Ledger.init.run c1ops).active_allocs =
      (Ledger.init.run c1ops).live.length :=
  active_counters_match_table c1ops (by decide) (by decide)

/-- Concrete call sequence refuting C1 as literally stated: the same
address is allocated twice with no intervening free.  `emplace` keeps
the first record, yet the counters are bumped both times. -/
def c1dup : List Op :=
  [Op.alloc 1 10 none none 0 false 0 0,
   Op.alloc 1 20 none none 0 false 0 0]

/-- **C1** counterexample: after `onAlloc(0x1, 10)` then `onAlloc(0x1, 20)`
the active-bytes counter is 30 while the table holds one record of size
10, and the active-allocations counter is 2 while the table has 1 entry. -/
theorem active_counters_mismatch_on_dup :
    ¬ ((Ledger.init.run c1dup).active_bytes =
         sumLive (Ledger.init.run c1dup).live ∧
       (Ledger.init.run c1dup).active_allocs =
         (Ledger.init.run c1dup).live.length) := by
  decide

-- ### Claim C2

/-- **C2** (amended): `onAlloc(addr, size, …)` is a no-op when `addr` is
null or `size` is zero.  Otherwise it always increments the total and
active allocation counts, adds `size` to active bytes, and raises peak
bytes if active bytes now exceeds it (all in `size_t` arithmetic, i.e.
modulo `2 ^ 64`); the record keyed by `addr` is *inserted* when `addr`
is absent from the table, but when `addr` is already present the table
is left completely unchanged (`emplace` does not overwrite). -/
theorem onAlloc_behaviour (s : Ledger) (p sz : Nat)
    (ty fi : Option (List Char)) (ln : Int) (arr : Bool) (tNs tid : Nat) :
    ((p = 0 ∨ sz = 0) → s.onAlloc p sz ty fi ln arr tNs tid = s) ∧
    (p ≠ 0 → sz ≠ 0 →
      (lookupLive s.live p = none →
        (s.onAlloc p sz ty fi ln arr tNs tid).live =
          (p, (⟨p, sz, ty, tNs, tid, fi, ln, arr⟩ : AllocationRecord)) ::
            s.live) ∧
      (lookupLive s.live p ≠ none →
        (s.onAlloc p sz ty fi ln arr tNs tid).live = s.live) ∧
      (s.onAlloc p sz ty fi ln arr tNs tid).total_allocs =
        (s.total_allocs + 1) % W ∧
      (s.onAlloc p sz ty fi ln arr tNs tid).active_allocs =
        (s.active_allocs + 1) % W ∧
      (s.onAlloc p sz ty fi ln arr tNs tid).active_bytes =
        (s.active_bytes + sz) % W ∧
      (s.onAlloc p sz ty fi ln arr tNs tid).peak_bytes =
        (if (s.active_bytes + sz) % W > s.peak_bytes then
          (s.active_bytes + sz) % W
        else s.peak_bytes)) := by
  constructor
  · intro h
    simp [Ledger.onAlloc, h]
  · intro hp hsz
    have hor : ¬ (p = 0 ∨ sz = 0) := by
      push_neg
      exact ⟨hp, hsz⟩
    refine ⟨?_, ?_, ?_, ?_, ?_, ?_⟩
    · intro hn
      simp [Ledger.onAlloc, hor, emplace, hn]
    · intro hn
      obtain ⟨r0, hr0⟩ := Option.ne_none_iff_exists'.mp hn
      simp [Ledger.onAlloc, hor, emplace, hr0]
    · simp [Ledger.onAlloc, hor]
    · simp [Ledger.onAlloc, hor]
    · simp [Ledger.onAlloc, hor]
    · simp [Ledger.onAlloc, hor]

theorem onAlloc_behaviour_witness :
    (Ledger.init.onAlloc 1 5 none none 0 false 0 0).live =
      [(1, (⟨1, 5, none, 0, 0, none, 0, false⟩ : AllocationRecord))] ∧
    (Ledger.init.onAlloc 1 5 none none 0 false 0 0).total_allocs = 1 % W ∧
    (Ledger.init.onAlloc 1 5 none none 0 false 0 0).active_bytes = 5 % W := by
  have h := (onAlloc_behaviour Ledger.init 1 5 none none 0 false 0 0).2
    (by decide) (by decide)
  exact ⟨h.1 rfl, h.2.2.1, h.2.2.2.2.1⟩

/-- **C2** counterexample: after `onAlloc(0x1, 10)` followed by
`onAlloc(0x1, 20)` with no intervening free, the table does *not* map
the address to a record of the new size 20 — `emplace` kept the old
record of size 10, so the claimed overwrite does not happen. -/
theorem onAlloc_no_overwrite_cex :
    ¬ (Option.map AllocationRecord.size
        (lookupLive ((Ledger.init.onAlloc 1 10 none none 0 false 0 0).onAlloc
          1 20 none none 0 false 0 0).live 1) = some 20) := by
  decide

-- ### Claim C3

theorem peak_step_mono (s : Ledger) (op : Op) :
    s.peak_bytes ≤ (s.step op).peak_bytes := by
  cases op with
  | alloc p sz ty fi ln arr tNs tid =>
    by_cases h0 : p = 0 ∨ sz = 0
    · simp [Ledger.step, Ledger.onAlloc, h0]
    · simp only [Ledger.step, Ledger.onAlloc, h0, if_false]
      by_cases h : (s.active_bytes + sz) % W > s.peak_bytes
      · simp [h]
        omega
      · simp [h]
  | free p arr =>
    by_cases hp : p = 0
    · simp [Ledger.step, Ledger.onFree, hp]
    · cases hl : lookupLive s.live p with
      | none => simp [Ledger.step, Ledger.onFree, hp, hl]
      | some r => simp [Ledger.step, Ledger.onFree, hp, hl]

theorem peak_step_ge_active (s : Ledger) (op : Op)
    (h : s.active_bytes ≤ s.peak_bytes) :
    (s.step op).active_bytes ≤ (s.step op).peak_bytes := by
  cases op with
  | alloc p sz ty fi ln arr tNs tid =>
    by_cases h0 : p = 0 ∨ sz = 0
    · simpa [Ledger.step, Ledger.onAlloc, h0] using h
    · simp only [Ledger.step, Ledger.onAlloc, h0, if_false]
      by_cases hgt : (s.active_bytes + sz) % W > s.peak_bytes
      · simp [hgt]
      · simp [hgt]
        omega
  | free p arr =>
    by_cases hp : p = 0
    · simpa [Ledger.step, Ledger.onFree, hp] using h
    · cases hl : lookupLive s.live p with
      | none => simpa [Ledger.step, Ledger.onFree, hp, hl] using h
      | some r =>
        simp only [Ledger.step, Ledger.onFree, hp, hl]
        by_cases hge : s.active_bytes ≥ r.size
        · simp [hge]
          omega
        · simp [hge]
          omega

theorem run_peak_ge_active (ops : List Op) : ∀ s : Ledger,
    s.active_bytes ≤ s.peak_bytes →
    (s.run ops).active_bytes ≤ (s.run ops).peak_bytes := by
  induction ops with
  | nil => intro s h; exact h
  | cons op rest ih =>
    intro s h
    rw [run_cons]
    exact ih _ (peak_step_ge_active s op h)

/-- **C3**: the peak-bytes counter never decreases under any tracker
operation (`onAlloc` or `onFree`), from any state whatsoever; and in
every state reachable from the fresh tracker the peak-bytes counter is
at least the active-bytes counter. -/
theorem peak_bytes_monotone_and_dominates :
    (∀ (s : Ledger) (op : Op), s.peak_bytes ≤ (s.step op).peak_bytes) ∧
    (∀ ops : List Op,
      (Ledger.init.run ops).active_bytes ≤
        (Ledger.init.run ops).peak_bytes) :=
  ⟨peak_step_mono, fun ops => run_peak_ge_active ops Ledger.init (by decide)⟩

-- ### Claim C4

theorem onFree_untracked_fixed (s : Ledger) (p : Nat) (arr : Bool)
    (h : p = 0 ∨ lookupLive s.live p = none) : s.onFree p arr = s := by
  rcases h with h | h
  · simp [Ledger.onFree, h]
  · by_cases hp : p = 0
    · simp [Ledger.onFree, hp]
    · simp [Ledger.onFree, hp, h]

/-- **C4**: calling `onFree` with a null address, or with an address not
present in the live table, any number of times, leaves the entire
tracker state — the live table and all four exported metrics (total
allocations, active allocations, active bytes, peak bytes) — unchanged. -/
theorem onFree_untracked_iterate_noop (s : Ledger) (p : Nat) (arr : Bool)
    (n : Nat) (h : p = 0 ∨ lookupLive s.live p = none) :
    (fun t : Ledger => t.onFree p arr)^[n] s = s := by
  have h1 : (fun t : Ledger => t.onFree p arr) s = s :=
    onFree_untracked_fixed s p arr h
  exact @Function.iterate_fixed Ledger (fun t : Ledger => t.onFree p arr) s h1 n

theorem onFree_untracked_iterate_noop_witness :
    (fun t : Ledger => t.onFree 7 false)^[3]
        (Ledger.init.onAlloc 1 10 none none 0 false 0 0) =
      Ledger.init.onAlloc 1 10 none none 0 false 0 0 :=
  onFree_untracked_iterate_noop _ 7 false 3 (by decide)

-- ### Decimal rendering and parsing (std::to_string on unsigned values)

/-- The decimal digit character for a digit value below ten. -/
def digitChr (d : Nat) : Char :=
  match d with
  | 0 => '0' | 1 => '1' | 2 => '2' | 3 => '3' | 4 => '4'
  | 5 => '5' | 6 => '6' | 7 => '7' | 8 => '8' | 9 => '9'
  | _ => '?'

/-- The value of a decimal digit character, `none` for a non-digit. -/
def digitVal (c : Char) : Option Nat :=
  if c = '0' then some 0 else if c = '1' then some 1
  else if c = '2' then some 2 else if c = '3' then some 3
  else if c = '4' then some 4 else if c = '5' then some 5
  else if c = '6' then some 6 else if c = '7' then some 7
  else if c = '8' then some 8 else if c = '9' then some 9
  else none

/-- Little-endian decimal digits of a natural number, computed with
structural fuel so that the definition reduces inside the kernel. -/
def decDigitsAux : Nat → Nat → List Nat
  | 0, _ => []
  | fuel + 1, n => if n = 0 then [] else n % 10 :: decDigitsAux fuel (n / 10)

/-- Little-endian decimal digits of a natural number. -/
def decDigits (n : Nat) : List Nat := decDigitsAux n n

theorem decDigitsAux_eq (fuel : Nat) : ∀ n : Nat, n ≤ fuel →
    decDigitsAux fuel n = Nat.digits 10 n := by
  induction fuel with
  | zero =>
    intro n h
    have h0 : n = 0 := Nat.le_zero.mp h
    subst h0
    simp [decDigitsAux]
  | succ f ih =>
    intro n h
    rw [decDigitsAux]
    by_cases h0 : n = 0
    · simp [h0]
    · rw [if_neg h0]
      have hdiv : n / 10 ≤ f := by
        have h1 : n / 10 < n := Nat.div_lt_self (Nat.pos_of_ne_zero h0)
          (by norm_num)
        omega
      rw [ih _ hdiv,
        Nat.digits_def' (by norm_num : (1 : ℕ) < 10) (Nat.pos_of_ne_zero h0)]

theorem decDigits_eq (n : Nat) : decDigits n = Nat.digits 10 n :=
  decDigitsAux_eq n n (Nat.le_refl n)

/-- Decimal rendering of a natural number, most significant digit
first — the behaviour of `std::to_string` on an unsigned value
(`u64_to_str` / `ptr_to_str` in Serializer.cpp). -/
def decRender (n : Nat) : List Char :=
  if n = 0 then ['0'] else ((decDigits n).map digitChr).reverse

/-- Whether a character is a decimal digit. -/
def isDigitCh (c : Char) : Bool := (digitVal c).isSome

def decParseAux (acc : Nat) : List Char → Option Nat
  | [] => some acc
  | c :: r =>
    match digitVal c with
    | none => none
    | some d => decParseAux (acc * 10 + d) r

/-- Parse a non-empty all-digit string back to the natural number it
denotes (most significant digit first). -/
def decParse (cs : List Char) : Option Nat :=
  if cs = [] then none else decParseAux 0 cs

theorem digitVal_digitChr (d : Nat) (h : d < 10) :
    digitVal (digitChr d) = some d := by
  interval_cases d <;> decide

theorem isDigitCh_mem_decRender (n : Nat) (c : Char) (h : c ∈ decRender n) :
    isDigitCh c = true := by
  rw [decRender] at h
  by_cases h0 : n = 0
  · simp [h0] at h
    subst h
    decide
  · simp only [h0, if_false, List.mem_reverse, decDigits_eq] at h
    obtain ⟨d, hd, rfl⟩ := List.mem_map.mp h
    have hlt : d < 10 := Nat.digits_lt_base (by norm_num) hd
    rw [isDigitCh, digitVal_digitChr d hlt]
    rfl

theorem decRender_ne_of_not_digit (n : Nat) (x : Char)
    (hx : isDigitCh x = false) : ∀ c ∈ decRender n, c ≠ x := by
  intro c hc he
  subst he
  rw [isDigitCh_mem_decRender n c hc] at hx
  cases hx

theorem decRender_ne_nil (n : Nat) : decRender n ≠ [] := by
  rw [decRender]
  by_cases h0 : n = 0
  · simp [h0]
  · simp only [h0, if_false]
    have hne : Nat.digits 10 n ≠ [] := Nat.digits_ne_nil_iff_ne_zero.mpr h0
    simp [decDigits_eq, hne]

theorem decParseAux_append (xs ys : List Char) : ∀ acc : Nat,
    decParseAux acc (xs ++ ys) =
      match decParseAux acc xs with
      | none => none
      | some a => decParseAux a ys := by
  induction xs with
  | nil => intro acc; rfl
  | cons c r ih =>
    intro acc
    rw [List.cons_append]
    cases hd : digitVal c with
    | none => simp [decParseAux, hd]
    | some d =>
      simp only [decParseAux, hd]
      exact ih _

theorem decParseAux_render (ds : List Nat) (h : ∀ d ∈ ds, d < 10) :
    ∀ acc : Nat,
      decParseAux acc ((ds.map digitChr).reverse) =
        some (acc * 10 ^ ds.length + Nat.ofDigits 10 ds) := by
  induction ds with
  | nil =>
    intro acc
    simp [decParseAux, Nat.ofDigits]
  | cons d t ih =>
    intro acc
    have hd : d < 10 := h d (List.mem_cons_self _ _)
    have ht : ∀ x ∈ t, x < 10 := fun x hx => h x (List.mem_cons_of_mem _ hx)
    rw [List.map_cons, List.reverse_cons, decParseAux_append, ih ht acc]
    simp only [decParseAux, digitVal_digitChr d hd, Nat.ofDigits_cons,
      List.length_cons]
    congr 1
    ring

theorem decParse_decRender (n : Nat) : decParse (decRender n) = some n := by
  by_cases h0 : n = 0
  · subst h0
    decide
  · rw [decParse, if_neg (decRender_ne_nil n), decRender, if_neg h0,
      decDigits_eq]
    rw [decParseAux_render (Nat.digits 10 n)
      (fun d hd => Nat.digits_lt_base (by norm_num) hd) 0]
    rw [Nat.ofDigits_digits]
    simp

-- ### Splitting a character stream at a separator

/-- Split a character list at every occurrence of `sep`; the result
always has one more part than there are separators. -/
def splitSep (sep : Char) : List Char → List (List Char)
  | [] => [[]]
  | c :: r =>
    if c = sep then [] :: splitSep sep r
    else
      match splitSep sep r with
      | [] => [[c]]
      | h :: t => (c :: h) :: t

theorem splitSep_ne_nil (sep : Char) (l : List Char) :
    splitSep sep l ≠ [] := by
  induction l with
  | nil => simp [splitSep]
  | cons c r ih =>
    rw [splitSep]
    by_cases hc : c = sep
    · simp [hc]
    · simp only [hc, if_false]
      cases h : splitSep sep r with
      | nil => simp
      | cons a t => simp

theorem splitSep_no_sep (sep : Char) (l : List Char)
    (h : ∀ c ∈ l, c ≠ sep) : splitSep sep l = [l] := by
  induction l with
  | nil => rfl
  | cons c r ih =>
    have hc : c ≠ sep := h c (List.mem_cons_self _ _)
    rw [splitSep, if_neg hc, ih (fun x hx => h x (List.mem_cons_of_mem _ hx))]

theorem splitSep_append (sep : Char) (a r : List Char)
    (h : ∀ c ∈ a, c ≠ sep) :
    splitSep sep (a ++ sep :: r) = a :: splitSep sep r := by
  induction a with
  | nil => simp [splitSep]
  | cons c t ih =>
    have hc : c ≠ sep := h c (List.mem_cons_self _ _)
    rw [List.cons_append, splitSep, if_neg hc,
      ih (fun x hx => h x (List.mem_cons_of_mem _ hx))]

/-- The complete, newline-terminated lines of a byte stream: all parts
of the newline-split except the trailing unterminated remainder. -/
def completeLines (buf : List Char) : List (List Char) :=
  (splitSep '\n' buf).dropLast

-- ### The serialization DTO and the CSV serializer

/-- Embedding of `mp::BlockInfo` (BlockInfo.hpp): the wire DTO consumed
by the serializers.  Numeric fields are the numeric values of the C++
fields (`ptr` is the `uintptr_t` value of the address). -/
structure BlockInfo where
  ptr : Nat
  size : Nat
  alloc_id : Nat
  thread_id : Nat
  t_ns : Nat
  callsite : List Char
  file : List Char
  line : Int
  type_name : List Char
deriving DecidableEq

/-- `u64_to_str` (Serializer.cpp, lines 8-10): decimal rendering. -/
def u64_to_str (v : Nat) : List Char := decRender v

/-- `ptr_to_str` (Serializer.cpp, lines 13-15): the pointer rendered as
the decimal representation of its numeric address value. -/
def ptr_to_str (p : Nat) : List Char := decRender p

/-- The characters a single block contributes to the CSV before its
terminating newline (`make_live_allocs_csv` loop body, Serializer.cpp,
lines 44-51). -/
def csvRow (b : BlockInfo) : List Char :=
  ptr_to_str b.ptr ++ ',' :: (decRender b.size ++ ',' ::
    (u64_to_str b.alloc_id ++ ',' :: (decRender b.thread_id ++ ',' ::
      (u64_to_str b.t_ns ++ ',' :: b.callsite))))

/-- `make_live_allocs_csv` (Serializer.cpp, lines 41-53): the fixed
header line followed by one newline-terminated row per block. -/
def make_live_allocs_csv (v : List BlockInfo) : List Char :=
  v.foldl (fun out b => out ++ (csvRow b ++ ['\n']))
    (("ptr,size,alloc_id,thread_id,t_ns,callsite\n").data)

/-- Parse the five leading numeric columns of one CSV row. -/
def csvNums (line : List Char) : Option (Nat × Nat × Nat × Nat × Nat) :=
  match splitSep ',' line with
  | f0 :: f1 :: f2 :: f3 :: f4 :: _ =>
    match decParse f0, decParse f1, decParse f2, decParse f3,
        decParse f4 with
    | some a, some b, some c, some d, some e => some (a, b, c, d, e)
    | _, _, _, _, _ => none
  | _ => none

theorem csv_foldl_closed (v : List BlockInfo) : ∀ init : List Char,
    v.foldl (fun out b => out ++ (csvRow b ++ ['\n'])) init =
      init ++ (v.map (fun b => csvRow b ++ ['\n'])).flatten := by
  induction v with
  | nil => intro init; simp
  | cons b t ih =>
    intro init
    rw [List.foldl_cons, ih, List.map_cons, List.flatten_cons,
      List.append_assoc]

theorem csvRow_no_nl (b : BlockInfo) (h : ∀ c ∈ b.callsite, c ≠ '\n') :
    ∀ c ∈ csvRow b, c ≠ '\n' := by
  intro c hc
  rw [csvRow] at hc
  simp only [ptr_to_str, u64_to_str, List.mem_append, List.mem_cons] at hc
  rcases hc with h1 | rfl | h1 | rfl | h1 | rfl | h1 | rfl | h1 | rfl | h1
  · exact decRender_ne_of_not_digit _ _ (by decide) c h1
  · decide
  · exact decRender_ne_of_not_digit _ _ (by decide) c h1
  · decide
  · exact decRender_ne_of_not_digit _ _ (by decide) c h1
  · decide
  · exact decRender_ne_of_not_digit _ _ (by decide) c h1
  · decide
  · exact decRender_ne_of_not_digit _ _ (by decide) c h1
  · decide
  · exact h c h1

theorem splitSep_comma_csvRow (b : BlockInfo) :
    splitSep ',' (csvRow b) =
      ptr_to_str b.ptr :: decRender b.size :: u64_to_str b.alloc_id ::
        decRender b.thread_id :: u64_to_str b.t_ns ::
          splitSep ',' b.callsite := by
  have hns : isDigitCh ',' = false := by decide
  rw [csvRow,
    splitSep_append ',' (ptr_to_str b.ptr) _
      (fun c hc => decRender_ne_of_not_digit _ ',' hns c hc),
    splitSep_append ',' (decRender b.size) _
      (fun c hc => decRender_ne_of_not_digit _ ',' hns c hc),
    splitSep_append ',' (u64_to_str b.alloc_id) _
      (fun c hc => decRender_ne_of_not_digit _ ',' hns c hc),
    splitSep_append ',' (decRender b.thread_id) _
      (fun c hc => decRender_ne_of_not_digit _ ',' hns c hc),
    splitSep_append ',' (u64_to_str b.t_ns) _
      (fun c hc => decRender_ne_of_not_digit _ ',' hns c hc)]

theorem csvNums_csvRow (b : BlockInfo) :
    csvNums (csvRow b) =
      some (b.ptr, b.size, b.alloc_id, b.thread_id, b.t_ns) := by
  simp only [csvNums, splitSep_comma_csvRow, ptr_to_str, u64_to_str,
    decParse_decRender]

theorem lines_of_rows (v : List BlockInfo)
    (h : ∀ b ∈ v, ∀ c ∈ b.callsite, c ≠ '\n') :
    (splitSep '\n' ((v.map (fun b => csvRow b ++ ['\n'])).flatten)).dropLast
      = v.map csvRow := by
  induction v with
  | nil => rfl
  | cons b t ih =>
    rw [List.map_cons, List.flatten_cons, List.append_assoc,
      List.singleton_append,
      splitSep_append '\n' (csvRow b) _
        (csvRow_no_nl b (h b (List.mem_cons_self _ _))),
      List.dropLast_cons_of_ne_nil (splitSep_ne_nil _ _),
      ih (fun x hx => h x (List.mem_cons_of_mem _ hx)), List.map_cons]

-- ### Claim C6

/-- **C6** (amended): for every list of live blocks whose callsite
strings contain no newline character (as holds for callsites of the
form `file:line`), `make_live_allocs_csv` consists of exactly the
header line followed by one line per block, so the newline-terminated
row count is the block count plus one; on an empty list the result is
exactly the header; the pointer column is the decimal rendering of the
address value and the five numeric columns of every row parse back to
the recorded values. -/
theorem live_allocs_csv_shape (v : List BlockInfo)
    (h : ∀ b ∈ v, ∀ c ∈ b.callsite, c ≠ '\n') :
    completeLines (make_live_allocs_csv v) =
      ("ptr,size,alloc_id,thread_id,t_ns,callsite").data :: v.map csvRow ∧
    (completeLines (make_live_allocs_csv v)).length = v.length + 1 ∧
    (∀ b ∈ v, csvNums (csvRow b) =
      some (b.ptr, b.size, b.alloc_id, b.thread_id, b.t_ns)) ∧
    make_live_allocs_csv [] =
      ("ptr,size,alloc_id,thread_id,t_ns,callsite\n").data := by
  have hshape : completeLines (make_live_allocs_csv v) =
      ("ptr,size,alloc_id,thread_id,t_ns,callsite").data :: v.map csvRow := by
    rw [make_live_allocs_csv, csv_foldl_closed, completeLines]
    rw [show ("ptr,size,alloc_id,thread_id,t_ns,callsite\n").data =
        ("ptr,size,alloc_id,thread_id,t_ns,callsite").data ++ ['\n'] from
        by decide]
    rw [List.append_assoc, List.singleton_append,
      splitSep_append '\n' _ _ (by decide),
      List.dropLast_cons_of_ne_nil (splitSep_ne_nil _ _),
      lines_of_rows v h]
  refine ⟨hshape, ?_, fun b _ => csvNums_csvRow b, rfl⟩
  rw [hshape]
  simp

/-- Concrete block list used to witness C6. -/
def c6blocks : List BlockInfo :=
  [⟨12, 34, 56, 78, 90, ("f.cpp:7").data, ("f.cpp").data, 7,
    ("int").data⟩]

theorem live_allocs_csv_shape_witness :
    completeLines (make_live_allocs_csv c6blocks) =
      ("ptr,size,alloc_id,thread_id,t_ns,callsite").data ::
        c6blocks.map csvRow ∧
    (completeLines (make_live_allocs_csv c6blocks)).length =
      c6blocks.length + 1 ∧
    (∀ b ∈ c6blocks, csvNums (csvRow b) =
      some (b.ptr, b.size, b.alloc_id, b.thread_id, b.t_ns)) ∧
    make_live_allocs_csv [] =
      ("ptr,size,alloc_id,thread_id,t_ns,callsite\n").data :=
  live_allocs_csv_shape c6blocks (by decide)

/-- Block list refuting C6 as literally stated: a callsite containing a
newline produces an extra line in the CSV. -/
def c6badBlocks : List BlockInfo :=
  [⟨12, 34, 56, 78, 90, ("a\nb").data, [], 0, []⟩]

/-- **C6** counterexample: for a block whose callsite contains a newline
character, the CSV has three newline-terminated rows, not
`block count + 1 = 2`. -/
theorem live_allocs_csv_row_count_cex :
    ¬ ((completeLines (make_live_allocs_csv c6badBlocks)).length =
        c6badBlocks.length + 1) := by
  decide

-- ### The summary JSON serializer

/-- The literal `\x7b"bytes_in_use":` opening the summary object. -/
def litSummaryHead : List Char := ("\x7b\"bytes_in_use\":").data

/-- The literal `,"peak":` between the first and second fields. -/
def litPeak : List Char := (",\"peak\":").data

/-- The literal `,"alloc_count":` between the second and third fields. -/
def litAllocCount : List Char := (",\"alloc_count\":").data

/-- The closing brace of a JSON object. -/
def litClose : List Char := ("\x7d").data

/-- `make_summary_json` (Serializer.cpp, lines 33-38): the summary
object with exactly the three counter fields, in source order. -/
def make_summary_json (b p c : Nat) : List Char :=
  litSummaryHead ++ decRender b ++ litPeak ++ decRender p ++
    litAllocCount ++ decRender c ++ litClose

/-- Consume an expected literal from the front of the input, returning
the remainder on success. -/
def expectLit : List Char → List Char → Option (List Char)
  | [], s => some s
  | _ :: _, [] => none
  | c :: l, x :: s => if x = c then expectLit l s else none

theorem expectLit_self_append (l r : List Char) :
    expectLit l (l ++ r) = some r := by
  induction l with
  | nil => rfl
  | cons c t ih => simp [expectLit, ih]

/-- A strict reader for the summary-JSON grammar: it succeeds exactly on
`\x7b"bytes_in_use":<digits>,"peak":<digits>,"alloc_count":<digits>\x7d`
with nothing before or after, returning the three numeric fields. -/
def summaryParse (cs : List Char) : Option (Nat × Nat × Nat) :=
  (expectLit litSummaryHead cs).bind fun r1 =>
  (decParse (r1.takeWhile isDigitCh)).bind fun b =>
  (expectLit litPeak (r1.dropWhile isDigitCh)).bind fun r2 =>
  (decParse (r2.takeWhile isDigitCh)).bind fun p =>
  (expectLit litAllocCount (r2.dropWhile isDigitCh)).bind fun r3 =>
  (decParse (r3.takeWhile isDigitCh)).bind fun c =>
  (expectLit litClose (r3.dropWhile isDigitCh)).bind fun r4 =>
  if r4 = [] then some (b, p, c) else none

theorem takeWhile_digits_append (a : List Char) (y : Char) (r : List Char)
    (ha : ∀ c ∈ a, isDigitCh c = true) (hy : isDigitCh y = false) :
    (a ++ y :: r).takeWhile isDigitCh = a ∧
    (a ++ y :: r).dropWhile isDigitCh = y :: r := by
  induction a with
  | nil => simp [List.takeWhile_cons, List.dropWhile_cons, hy]
  | cons c t ih =>
    have hc := ha c (List.mem_cons_self _ _)
    obtain ⟨h1, h2⟩ := ih (fun x hx => ha x (List.mem_cons_of_mem _ hx))
    simp [List.takeWhile_cons, List.dropWhile_cons, hc, h1, h2]

theorem num_field_step (n : Nat) (y : Char) (r : List Char)
    (hy : isDigitCh y = false) :
    decParse ((decRender n ++ y :: r).takeWhile isDigitCh) = some n ∧
    (decRender n ++ y :: r).dropWhile isDigitCh = y :: r := by
  obtain ⟨h1, h2⟩ := takeWhile_digits_append (decRender n) y r
    (fun c hc => isDigitCh_mem_decRender n c hc) hy
  exact ⟨by rw [h1, decParse_decRender], h2⟩

theorem field_then_lit (n : Nat) (lit rest : List Char) (y : Char)
    (tl : List Char) (hlit : lit = y :: tl) (hy : isDigitCh y = false) :
    decParse ((decRender n ++ (lit ++ rest)).takeWhile isDigitCh) =
      some n ∧
    expectLit lit ((decRender n ++ (lit ++ rest)).dropWhile isDigitCh) =
      some rest := by
  subst hlit
  rw [List.cons_append]
  refine ⟨(num_field_step n y (tl ++ rest) hy).1, ?_⟩
  rw [(num_field_step n y (tl ++ rest) hy).2, ← List.cons_append]
  exact expectLit_self_append _ _

theorem field_then_lit_end (n : Nat) (lit : List Char) (y : Char)
    (tl : List Char) (hlit : lit = y :: tl) (hy : isDigitCh y = false) :
    decParse ((decRender n ++ lit).takeWhile isDigitCh) = some n ∧
    expectLit lit ((decRender n ++ lit).dropWhile isDigitCh) = some [] := by
  subst hlit
  refine ⟨(num_field_step n y tl hy).1, ?_⟩
  rw [(num_field_step n y tl hy).2]
  have h := expectLit_self_append (y :: tl) []
  rw [List.append_nil] at h
  exact h

theorem summaryParse_make (b p c : Nat) :
    summaryParse (make_summary_json b p c) = some (b, p, c) := by
  simp only [summaryParse, make_summary_json, List.append_assoc]
  rw [expectLit_self_append]
  simp only [Option.some_bind]
  obtain ⟨tk1, ex1⟩ := field_then_lit b litPeak
    (decRender p ++ (litAllocCount ++ (decRender c ++ litClose))) ','
    (("\"peak\":").data) (by decide) (by decide)
  rw [tk1]
  simp only [Option.some_bind]
  rw [ex1]
  simp only [Option.some_bind]
  obtain ⟨tk2, ex2⟩ := field_then_lit p litAllocCount
    (decRender c ++ litClose) ',' (("\"alloc_count\":").data)
    (by decide) (by decide)
  rw [tk2]
  simp only [Option.some_bind]
  rw [ex2]
  simp only [Option.some_bind]
  obtain ⟨tk3, ex3⟩ := field_then_lit_end c litClose '\x7d' []
    (by decide) (by decide)
  rw [tk3]
  simp only [Option.some_bind]
  rw [ex3]
  simp only [Option.some_bind]
  simp

-- ### Claim C7

/-- **C7**: for all counter values `b`, `p`, `c` the summary serializer
produces exactly the object with the three integer fields
`bytes_in_use`, `peak`, `alloc_count` in that order and nothing else
(the strict reader `summaryParse` accepts it and recovers the three
values); in particular for 150/300/5 it produces exactly
`\x7b"bytes_in_use":150,"peak":300,"alloc_count":5\x7d`. -/
theorem summary_json_fields (b p c : Nat) :
    summaryParse (make_summary_json b p c) = some (b, p, c) ∧
    make_summary_json 150 300 5 =
      ("\x7b\"bytes_in_use\":150,\"peak\":300,\"alloc_count\":5\x7d").data :=
  ⟨summaryParse_make b p c, by decide⟩

-- ### JSON string escaping (Serializer.cpp, json_escape)

/-- The characters one input character contributes to the escaped
output (`json_escape` loop body, Serializer.cpp, lines 21-28). -/
def escChar (c : Char) : List Char :=
  if c = '\\' ∨ c = '"' then ['\\', c]
  else if c = '\n' then ['\\', 'n']
  else [c]

/-- `json_escape` (Serializer.cpp, lines 18-30): escapes backslash,
double quote and newline; every other byte passes through unchanged. -/
def json_escape : List Char → List Char
  | [] => []
  | c :: r => escChar c ++ json_escape r

/-- Decode one JSON escape character (the standard single-character
escapes of a JSON reader). -/
def escDecode (e : Char) : Option Char :=
  if e = '\\' then some '\\'
  else if e = '"' then some '"'
  else if e = '/' then some '/'
  else if e = 'n' then some '\n'
  else if e = 't' then some '\t'
  else if e = 'r' then some '\r'
  else if e = 'b' then some (Char.ofNat 8)
  else if e = 'f' then some (Char.ofNat 12)
  else none

/-- A JSON string-content reader: backslash introduces one of the
standard escapes, every other byte stands for itself. -/
def json_unescape : List Char → Option (List Char)
  | [] => some []
  | c :: r =>
    if c = '\\' then
      match r with
      | [] => none
      | e :: r2 =>
        match escDecode e with
        | none => none
        | some d => (json_unescape r2).map (fun t => d :: t)
    else (json_unescape r).map (fun t => c :: t)

theorem json_unescape_json_escape (s : List Char) :
    json_unescape (json_escape s) = some s := by
  induction s with
  | nil => rfl
  | cons c r ih =>
    by_cases h1 : c = '\\' ∨ c = '"'
    · have hd : escDecode c = some c := by
        rcases h1 with rfl | rfl <;> decide
      simp [json_escape, escChar, h1, json_unescape, hd, ih]
    · by_cases h2 : c = '\n'
      · subst h2
        have h1' : ¬(('\n' : Char) = '\\' ∨ ('\n' : Char) = '"') := by decide
        have hd : escDecode 'n' = some '\n' := by decide
        simp [json_escape, escChar, h1', json_unescape, hd, ih]
      · have h3 : c ≠ '\\' := fun he => h1 (Or.inl he)
        have h4 : c ≠ '"' := fun he => h1 (Or.inr he)
        have hesc : json_escape (c :: r) = c :: json_escape r := by
          simp [json_escape, escChar, h3, h4, h2]
        rw [hesc]
        cases hj : json_escape r with
        | nil =>
          rw [hj] at ih
          simp only [json_unescape, Option.some.injEq] at ih
          subst ih
          simp [json_unescape, h3]
        | cons e t =>
          rw [hj] at ih
          simp [json_unescape, h3, ih]

-- ### Claim C5

/-- **C5**: the escaper rewrites exactly backslash, double quote and
newline (to `\\`, `\"`, `\n`) and passes every other byte through
unchanged, and a JSON string reader applied to the escaped text
recovers the original string exactly, for every string. -/
theorem json_escape_exact_and_roundtrip (s : List Char) (c : Char)
    (h1 : c ≠ '\\') (h2 : c ≠ '"') (h3 : c ≠ '\n') :
    escChar c = [c] ∧
    escChar '\\' = ['\\', '\\'] ∧
    escChar '"' = ['\\', '"'] ∧
    escChar '\n' = ['\\', 'n'] ∧
    json_unescape (json_escape s) = some s :=
  ⟨by simp [escChar, h1, h2, h3], by decide, by decide, by decide,
    json_unescape_json_escape s⟩

theorem json_escape_exact_and_roundtrip_witness :
    escChar 'a' = ['a'] ∧
    escChar '\\' = ['\\', '\\'] ∧
    escChar '"' = ['\\', '"'] ∧
    escChar '\n' = ['\\', 'n'] ∧
    json_unescape (json_escape (("ty\"pe\\name").data)) =
      some (("ty\"pe\\name").data) :=
  json_escape_exact_and_roundtrip (("ty\"pe\\name").data) 'a'
    (by decide) (by decide) (by decide)

-- ### Block-list JSON and the message envelope (Serializer.cpp)

/-- `std::to_string` on a signed `int` value. -/
def intRender (i : Int) : List Char :=
  if i < 0 then '-' :: decRender i.natAbs else decRender i.toNat

/-- The JSON object emitted for one block
(`make_live_allocs_json` loop body, Serializer.cpp, lines 59-70). -/
def blockJson (b : BlockInfo) : List Char :=
  ("\x7b\"ptr\":\"").data ++ ptr_to_str b.ptr ++ ("\",").data ++
  ("\"size\":").data ++ decRender b.size ++ (",").data ++
  ("\"alloc_id\":").data ++ u64_to_str b.alloc_id ++ (",").data ++
  ("\"thread_id\":").data ++ decRender b.thread_id ++ (",").data ++
  ("\"t_ns\":").data ++ u64_to_str b.t_ns ++ (",").data ++
  ("\"callsite\":\"").data ++ json_escape b.callsite ++ ("\",").data ++
  ("\"file\":\"").data ++ json_escape b.file ++ ("\",").data ++
  ("\"line\":").data ++ intRender b.line ++ (",").data ++
  ("\"type_name\":\"").data ++ json_escape b.type_name ++ ("\"\x7d").data

/-- The comma-prefixed continuation blocks (`if(!first) j += ","`). -/
def blocksRest : List BlockInfo → List Char
  | [] => []
  | b :: t => ',' :: (blockJson b ++ blocksRest t)

/-- `make_live_allocs_json` (Serializer.cpp, lines 56-74). -/
def make_live_allocs_json (v : List BlockInfo) : List Char :=
  ("\x7b\"blocks\":[").data ++
    (match v with
     | [] => []
     | b :: t => blockJson b ++ blocksRest t) ++
    ("]\x7d").data

/-- `make_message_json` (Serializer.cpp, lines 77-84): the typed
envelope wrapping an already-serialized JSON payload verbatim. -/
def make_message_json (ty payload : List Char) : List Char :=
  ("\x7b\"type\":\"").data ++ ty ++ ("\",\"payload\":").data ++
    payload ++ ("\x7d").data

-- ### Claim C8: the reentrancy guard

/-- Constructor of `ScopedHookGuard` (ReentryGuard.hpp, lines 14-16)
and of `AntiReentry` (SocketClient.cpp, line 32): captures the prior
value of the thread's `in_hook` flag and sets the flag to `true`.
Returns `(captured previous value, new flag value)`. -/
def enterGuard (flag : Bool) : Bool × Bool := (flag, true)

/-- Destructor (ReentryGuard.hpp, lines 17-19; SocketClient.cpp,
line 33): assigns the captured previous value back to the flag,
ignoring whatever the flag currently is. -/
def exitGuard (prev _cur : Bool) : Bool := prev

/-- One guarded region: enter, run a body that may transform the
thread's flag arbitrarily (including by nesting further guarded
regions), then exit. Returns the flag value after the region. -/
def guardedRegion (body : Bool → Bool) (flag : Bool) : Bool :=
  exitGuard (enterGuard flag).1 (body (enterGuard flag).2)

/-- **C8**: entering a guarded region captures the prior flag value and
sets the flag `true`; exiting restores exactly the captured prior value
(for any body and any prior value — not an unconditional reset to
`false`); hence an inner guarded region nested inside an outer one
(whose entry set the flag to `true`) leaves the flag `true`, exactly
what the outer region had set. -/
theorem guard_restores_prior_value (body inner : Bool → Bool) (f : Bool) :
    enterGuard f = (f, true) ∧
    guardedRegion body f = f ∧
    guardedRegion inner ((enterGuard f).2) = true :=
  ⟨rfl, rfl, rfl⟩

-- ### Claim C9: inbound command processing of the telemetry client

/-- The whitespace predicate of `trimCopy` (SocketClient.cpp,
lines 112-113): space, tab, carriage return, newline. -/
def isSpaceCh (c : Char) : Bool :=
  c = ' ' || c = '\t' || c = '\r' || c = '\n'

/-- `trimCopy` (SocketClient.cpp, lines 110-115): strip leading and
trailing whitespace. -/
def trimCopy (s : List Char) : List Char :=
  ((s.dropWhile isSpaceCh).reverse.dropWhile isSpaceCh).reverse

/-- The reply sent for a `SNAPSHOT` command (SocketClient.cpp,
lines 221-228): `mp::api::getSnapshotJson()` — the `LIVE_ALLOCS`
message envelope around the block-list JSON (ProfilerAPI.cpp,
lines 50-54 and 64) — with a newline appended. -/
def snapshotReply (blocks : List BlockInfo) : List Char :=
  make_message_json (("LIVE_ALLOCS").data) (make_live_allocs_json blocks)
    ++ ['\n']

/-- `rxBuffer.find('\n')` followed by `substr`/`erase`: the characters
before the first newline and the characters after it, if any newline
is present. -/
def splitFirstNl : List Char → Option (List Char × List Char)
  | [] => none
  | c :: r =>
    if c = '\n' then some ([], r)
    else
      match splitFirstNl r with
      | none => none
      | some ab => some (c :: ab.1, ab.2)

theorem splitFirstNl_length (buf : List Char) :
    ∀ lr : List Char × List Char, splitFirstNl buf = some lr →
      lr.2.length < buf.length := by
  induction buf with
  | nil => intro lr h; simp [splitFirstNl] at h
  | cons c r ih =>
    intro lr h
    rw [splitFirstNl] at h
    by_cases hc : c = '\n'
    · rw [if_pos hc] at h
      cases h
      simp
    · rw [if_neg hc] at h
      cases hsp : splitFirstNl r with
      | none => rw [hsp] at h; cases h
      | some ab =>
        rw [hsp] at h
        cases h
        have := ih ab hsp
        simp
        omega

/-- The command-processing loop of `SocketClient::Impl::runLoop`
(SocketClient.cpp, lines 215-231): repeatedly extract the text before
the first newline from the receive buffer, trim it, and if it equals
`SNAPSHOT` send one snapshot reply; any other line has no effect.
Returns the list of replies sent, in order.  (Network sends are modelled
as succeeding; `blocks` is the ledger's snapshot.) -/
def rxProcess (blocks : List BlockInfo) (buf : List Char) :
    List (List Char) :=
  match h : splitFirstNl buf with
  | none => []
  | some lr =>
    (if trimCopy lr.1 = ("SNAPSHOT").data then [snapshotReply blocks]
     else []) ++ rxProcess blocks lr.2
termination_by buf.length
decreasing_by exact splitFirstNl_length buf lr h

theorem splitFirstNl_none_no_nl (buf : List Char)
    (h : splitFirstNl buf = none) : ∀ c ∈ buf, c ≠ '\n' := by
  induction buf with
  | nil => intro c hc; cases hc
  | cons x r ih =>
    rw [splitFirstNl] at h
    by_cases hx : x = '\n'
    · rw [if_pos hx] at h; cases h
    · rw [if_neg hx] at h
      intro c hc
      rcases List.mem_cons.mp hc with rfl | hc2
      · exact hx
      · cases hsp : splitFirstNl r with
        | none => exact ih hsp c hc2
        | some ab => rw [hsp] at h; cases h

theorem splitFirstNl_some_split (buf : List Char) :
    ∀ lr : List Char × List Char, splitFirstNl buf = some lr →
      buf = lr.1 ++ '\n' :: lr.2 ∧ ∀ c ∈ lr.1, c ≠ '\n' := by
  induction buf with
  | nil => intro lr h; simp [splitFirstNl] at h
  | cons x r ih =>
    intro lr h
    rw [splitFirstNl] at h
    by_cases hx : x = '\n'
    · rw [if_pos hx] at h
      cases h
      subst hx
      exact ⟨rfl, by intro c hc; cases hc⟩
    · rw [if_neg hx] at h
      cases hsp : splitFirstNl r with
      | none => rw [hsp] at h; cases h
      | some ab =>
        rw [hsp] at h
        cases h
        obtain ⟨h1, h2⟩ := ih ab hsp
        constructor
        · simp only [List.cons_append]
          rw [← h1]
        · intro c hc
          rcases List.mem_cons.mp hc with rfl | hc2
          · exact hx
          · exact h2 c hc2

theorem completeLines_no_nl (buf : List Char) (h : ∀ c ∈ buf, c ≠ '\n') :
    completeLines buf = [] := by
  rw [completeLines, splitSep_no_sep '\n' buf h]
  rfl

theorem completeLines_append_nl (a b : List Char)
    (ha : ∀ c ∈ a, c ≠ '\n') :
    completeLines (a ++ '\n' :: b) = a :: completeLines b := by
  rw [completeLines, splitSep_append '\n' a b ha,
    List.dropLast_cons_of_ne_nil (splitSep_ne_nil _ _)]
  rfl

theorem rxProcess_filterMap (blocks : List BlockInfo) :
    ∀ (n : Nat) (buf : List Char), buf.length ≤ n →
      rxProcess blocks buf = (completeLines buf).filterMap
        (fun line => if trimCopy line = ("SNAPSHOT").data
          then some (snapshotReply blocks) else none) := by
  intro n
  induction n with
  | zero =>
    intro buf hl
    have hb : buf = [] := List.eq_nil_of_length_eq_zero (Nat.le_zero.mp hl)
    subst hb
    rw [rxProcess]
    rfl
  | succ k ih =>
    intro buf hl
    cases hsp : splitFirstNl buf with
    | none =>
      rw [rxProcess, hsp,
        completeLines_no_nl buf (splitFirstNl_none_no_nl buf hsp)]
      rfl
    | some lr =>
      obtain ⟨hbuf, hnl⟩ := splitFirstNl_some_split buf lr hsp
      have hlen : lr.2.length ≤ k := by
        have h1 := splitFirstNl_length buf lr hsp
        omega
      rw [rxProcess, hsp]
      simp only []
      rw [ih lr.2 hlen, hbuf,
        completeLines_append_nl lr.1 lr.2 hnl, List.filterMap_cons]
      by_cases ht : trimCopy lr.1 = ("SNAPSHOT").data
      · simp [ht]
      · simp [ht]

/-- **C9**: in the client's inbound processing, every complete
newline-terminated line whose whitespace-trimmed text equals exactly
`SNAPSHOT` triggers exactly one newline-terminated `LIVE_ALLOCS`
envelope reply, and every other complete line is ignored with no
effect: the replies are precisely one `snapshotReply` per matching
complete line of the receive buffer. -/
theorem snapshot_command_semantics (blocks : List BlockInfo)
    (buf : List Char) :
    rxProcess blocks buf = (completeLines buf).filterMap
      (fun line => if trimCopy line = ("SNAPSHOT").data
        then some (snapshotReply blocks) else none) :=
  rxProcess_filterMap blocks buf.length buf (Nat.le_refl _)

-- ### Claim C10: what the summary's alloc_count field reports

/-- `summary_json` (ProfilerAPI.cpp, lines 31-34) with the callbacks
installed by `install_callbacks_with_memorytracker`
(CallbacksRegistration.cpp, lines 36-43): `bytesInUse` is the tracker's
`activeBytes()`, `peakBytes` is `peakBytes()`, and `allocCount` is
`totalAllocs()` — the total-ever counter, not the active count. -/
def Ledger.summary_json (s : Ledger) : List Char :=
  make_summary_json s.active_bytes s.peak_bytes s.total_allocs

theorem onFree_total_allocs (s : Ledger) (q : Nat) (qarr : Bool) :
    (s.onFree q qarr).total_allocs = s.total_allocs := by
  by_cases hq : q = 0
  · simp [Ledger.onFree, hq]
  · cases hl : lookupLive s.live q with
    | none => simp [Ledger.onFree, hq, hl]
    | some r => simp [Ledger.onFree, hq, hl]

theorem total_allocs_iterate (n : Nat) :
    ((fun s : Ledger => s.onAlloc 1 1 none none 0 false 0 0)^[n]
      Ledger.init).total_allocs = n % W := by
  have hW : W = 18446744073709551616 := by norm_num [W]
  induction n with
  | zero => simp [Ledger.init]
  | succ k ih =>
    have hstep : ∀ t : Ledger,
        (t.onAlloc 1 1 none none 0 false 0 0).total_allocs =
          (t.total_allocs + 1) % W := by
      intro t
      have hor : ¬((1 : Nat) = 0 ∨ (1 : Nat) = 0) := by decide
      simp [Ledger.onAlloc, hor]
    rw [Function.iterate_succ_apply']
    simp only [hstep, ih, hW]
    omega

/-- **C10** counterexample: the `alloc_count` source, `total_allocs_`,
is a `std::size_t` and wraps modulo 2^64, so after 2^64 recorded
allocations the counter has decreased — "non-decreasing over the
process lifetime" fails as an unconditional statement. -/
theorem total_allocs_wraparound_cex :
    ((fun s : Ledger => s.onAlloc 1 1 none none 0 false 0 0)^[2 ^ 64]
        Ledger.init).total_allocs <
      ((fun s : Ledger => s.onAlloc 1 1 none none 0 false 0 0)^[2 ^ 64 - 1]
        Ledger.init).total_allocs := by
  rw [total_allocs_iterate, total_allocs_iterate]
  norm_num [W]

/-- **C10** (amended): the `alloc_count` field of the exported summary
reports the tracker's total-ever allocation counter, not the currently
active allocation count: the summary parses back to (active bytes,
peak bytes, total allocations); `onFree` never changes the counter;
every successful `onAlloc` increments it in `size_t` arithmetic
(modulo 2^64); hence the counter strictly increases — in particular
never decreases — as long as fewer than 2^64 allocations have been
recorded (`size_t` wraparound aside); and on a state with one recorded
allocation that has since been freed, the exported `alloc_count` is 1
while the active allocation count is 0. -/
theorem alloc_count_reports_total (s : Ledger) (p sz : Nat)
    (ty fi : Option (List Char)) (ln : Int) (arr : Bool) (tNs tid : Nat)
    (q : Nat) (qarr : Bool)
    (hp : p ≠ 0) (hsz : sz ≠ 0) (hlt : s.total_allocs + 1 < W) :
    summaryParse s.summary_json =
      some (s.active_bytes, s.peak_bytes, s.total_allocs) ∧
    (s.onFree q qarr).total_allocs = s.total_allocs ∧
    (s.onAlloc p sz ty fi ln arr tNs tid).total_allocs =
      (s.total_allocs + 1) % W ∧
    s.total_allocs < (s.onAlloc p sz ty fi ln arr tNs tid).total_allocs ∧
    summaryParse (Ledger.summary_json
        ((Ledger.init.onAlloc 1 5 none none 0 false 0 0).onFree 1
          false)) = some (0, 5, 1) ∧
    ((Ledger.init.onAlloc 1 5 none none 0 false 0 0).onFree 1
        false).active_allocs = 0 := by
  have hor : ¬(p = 0 ∨ sz = 0) := by
    push_neg
    exact ⟨hp, hsz⟩
  have h3 : (s.onAlloc p sz ty fi ln arr tNs tid).total_allocs =
      (s.total_allocs + 1) % W := by
    simp [Ledger.onAlloc, hor]
  refine ⟨summaryParse_make _ _ _, onFree_total_allocs s q qarr, h3, ?_,
    by decide, by decide⟩
  rw [h3, Nat.mod_eq_of_lt hlt]
  omega

theorem alloc_count_reports_total_witness :
    summaryParse Ledger.init.summary_json =
      some (Ledger.init.active_bytes, Ledger.init.peak_bytes,
        Ledger.init.total_allocs) ∧
    (Ledger.init.onFree 9 false).total_allocs =
      Ledger.init.total_allocs ∧
    (Ledger.init.onAlloc 2 7 none none 0 false 0 0).total_allocs =
      (Ledger.init.total_allocs + 1) % W ∧
    Ledger.init.total_allocs <
      (Ledger.init.onAlloc 2 7 none none 0 false 0 0).total_allocs ∧
    summaryParse (Ledger.summary_json
        ((Ledger.init.onAlloc 1 5 none none 0 false 0 0).onFree 1
          false)) = some (0, 5, 1) ∧
    ((Ledger.init.onAlloc 1 5 none none 0 false 0 0).onFree 1
        false).active_allocs = 0 :=
  alloc_count_reports_total Ledger.init 2 7 none none 0 false 0 0 9 false
    (by decide) (by decide) (by decide)

end MP
